import Mathlib

/-
Verification of the crontab editor's parse/merge core (src/main.go) against
its natural-language specification.  Strings are modelled as lists of
characters; every Go string operation used by the source is embedded
explicitly below.
-/

set_option maxHeartbeats 1000000
set_option linter.unusedVariables false

abbrev Str := List Char

/-- Character list of a string literal (used to write concrete inputs). -/
def str (s : String) : Str := s.data

/-- The character class matched by `\s` in Go's regexp package
(RE2 Perl class: tab, newline, form feed, carriage return, space). -/
def regexSpace (c : Char) : Bool :=
  c == '\t' || c == '\n' || c == Char.ofNat 12 || c == '\r' || c == ' '

/-- Go's `unicode.IsSpace` (the White_Space property), used by
`strings.TrimSpace`. -/
def unicodeIsSpace (c : Char) : Bool :=
  c == '\t' || c == '\n' || c == Char.ofNat 11 || c == Char.ofNat 12 ||
  c == '\r' || c == ' ' || c == Char.ofNat 133 || c == Char.ofNat 160 ||
  c == Char.ofNat 5760 ||
  (decide (8192 ≤ c.toNat) && decide (c.toNat ≤ 8202)) ||
  c == Char.ofNat 8232 || c == Char.ofNat 8233 || c == Char.ofNat 8239 ||
  c == Char.ofNat 8287 || c == Char.ofNat 12288

/-- `strings.TrimSpace`: drop Unicode white space from both ends. -/
def goTrimSpace (l : Str) : Str :=
  ((l.dropWhile unicodeIsSpace).reverse.dropWhile unicodeIsSpace).reverse

/-- Raw split of a character stream into lines at each newline, following
`bufio.ScanLines`: a trailing newline does not produce a final empty line. -/
def consHead (c : Char) : List Str → List Str
  | [] => [[c]]
  | l :: ls => (c :: l) :: ls

def rawLines : Str → List Str
  | [] => []
  | c :: rest => if c == '\n' then [] :: rawLines rest else consHead c (rawLines rest)

/-- `bufio.ScanLines` drops a single carriage return at the end of a line. -/
def stripCR (l : Str) : Str :=
  if l.getLast? == some '\r' then l.dropLast else l

/-- The sequence of lines a `bufio.Scanner` yields from a string. -/
def goLines (s : Str) : List Str := (rawLines s).map stripCR

/-- The six capture groups of
`^(\S+)\s+(\S+)\s+(\S+)\s+(\S+)\s+(\S+)\s+(.*)$`. -/
structure CronMatch where
  f1 : Str
  f2 : Str
  f3 : Str
  f4 : Str
  f5 : Str
  rest : Str
deriving DecidableEq

/-- Matching the anchored cron pattern
`^(\S+)\s+(\S+)\s+(\S+)\s+(\S+)\s+(\S+)\s+(.*)$` against a string.  The
greedy classes make the match deterministic: each `\S+` is a maximal
non-space run, each `\s+` a maximal space run; `.` does not match a
newline, so the final group must be newline-free. -/
def matchCron (l : Str) : Option CronMatch :=
  let f1 := l.takeWhile (fun c => !regexSpace c)
  let r1 := l.dropWhile (fun c => !regexSpace c)
  let s1 := r1.takeWhile regexSpace
  let r2 := r1.dropWhile regexSpace
  let f2 := r2.takeWhile (fun c => !regexSpace c)
  let r3 := r2.dropWhile (fun c => !regexSpace c)
  let s2 := r3.takeWhile regexSpace
  let r4 := r3.dropWhile regexSpace
  let f3 := r4.takeWhile (fun c => !regexSpace c)
  let r5 := r4.dropWhile (fun c => !regexSpace c)
  let s3 := r5.takeWhile regexSpace
  let r6 := r5.dropWhile regexSpace
  let f4 := r6.takeWhile (fun c => !regexSpace c)
  let r7 := r6.dropWhile (fun c => !regexSpace c)
  let s4 := r7.takeWhile regexSpace
  let r8 := r7.dropWhile regexSpace
  let f5 := r8.takeWhile (fun c => !regexSpace c)
  let r9 := r8.dropWhile (fun c => !regexSpace c)
  let s5 := r9.takeWhile regexSpace
  let g6 := r9.dropWhile regexSpace
  if f1.isEmpty || s1.isEmpty || f2.isEmpty || s2.isEmpty || f3.isEmpty ||
     s3.isEmpty || f4.isEmpty || s4.isEmpty || f5.isEmpty || s5.isEmpty ||
     g6.contains '\n' then
    none
  else
    some ⟨f1, f2, f3, f4, f5, g6⟩

/-- `cronRegex.MatchString(line)`. -/
def cronMatches (l : Str) : Bool := (matchCron l).isSome

/-- The `CrontabEntry` struct of src/main.go. -/
structure CrontabEntry where
  id : Nat
  minute : Str
  hour : Str
  dayOfMonth : Str
  month : Str
  dayOfWeek : Str
  command : Str
  rawLine : Str
  comment : Str
  enabled : Bool
deriving DecidableEq

/-- Building a `CrontabEntry` from regex groups, as both branches of
`parseCrontabOutput` do: the command is `strings.TrimSpace(matches[6])`. -/
def entryOfMatch (nextId : Nat) (m : CronMatch) (line : Str) (en : Bool) : CrontabEntry :=
  ⟨nextId, m.f1, m.f2, m.f3, m.f4, m.f5, goTrimSpace m.rest, line, [], en⟩

/-- The per-line loop of `parseCrontabOutput` (src/main.go lines 106-160),
threading the `nextEntryID` counter. -/
def parseCrontabLines : List Str → Nat → List CrontabEntry
  | [], _ => []
  | line :: rest, nextId =>
    if goTrimSpace line == [] then parseCrontabLines rest nextId
    else if (str "#").isPrefixOf line then
      if (str "# ").isPrefixOf line then
        match matchCron (line.drop 2) with
        | some m => entryOfMatch nextId m line false :: parseCrontabLines rest (nextId + 1)
        | none => parseCrontabLines rest nextId
      else parseCrontabLines rest nextId
    else if line.contains '=' && !((str "*").isPrefixOf line) then
      parseCrontabLines rest nextId
    else
      match matchCron line with
      | some m => entryOfMatch nextId m line true :: parseCrontabLines rest (nextId + 1)
      | none => parseCrontabLines rest nextId

/-- `parseCrontabOutput` of src/main.go. -/
def parseCrontabOutput (output : Str) (startId : Nat) : List CrontabEntry :=
  parseCrontabLines (goLines output) startId

/-- The canonical six-field joined line
`fmt.Sprintf("%s %s %s %s %s %s", ...)` used by `updateCrontab`. -/
def canonicalLine (e : CrontabEntry) : Str :=
  e.minute ++ [' '] ++ e.hour ++ [' '] ++ e.dayOfMonth ++ [' '] ++
  e.month ++ [' '] ++ e.dayOfWeek ++ [' '] ++ e.command

/-- The single line Step 1 of `updateCrontab` writes for one submitted entry
(src/main.go lines 177-203), without the trailing newline. -/
def emitLine (e : CrontabEntry) : Str :=
  if e.enabled then canonicalLine e
  else if !(e.rawLine == []) && !((str "#").isPrefixOf e.rawLine) then
    str "# " ++ e.rawLine
  else if !(e.rawLine == []) && (str "#").isPrefixOf e.rawLine then
    e.rawLine
  else
    str "# " ++ canonicalLine e

/-- One Step-1 emission including the newline written after it. -/
def emitEntry (e : CrontabEntry) : Str := emitLine e ++ ['\n']

/-- The Step-2 preservation predicate of `updateCrontab`
(src/main.go lines 223-290): decides whether a line of the freshly read
crontab text is appended to the output.  Mirrors the two branches of the
scan loop, including the repeated raw-line equality checks in the
blank/comment branch. -/
def step2Keep (entries : List CrontabEntry) (line : Str) : Bool :=
  let trimmed := goTrimSpace line
  if trimmed == [] || (str "#").isPrefixOf trimmed then
    let isManagedComment := entries.any (fun e => e.rawLine == line)
    if !isManagedComment && !cronMatches line && !((str "# ").isPrefixOf line) then
      let found := entries.any (fun e => e.rawLine == line)
      !found
    else false
  else
    let foundInUpdated := entries.any (fun e =>
      e.rawLine == line ||
        ((str "# ").isPrefixOf line && e.enabled && canonicalLine e == line.drop 2))
    !cronMatches line && !foundInUpdated

/-- Step 1 of `updateCrontab`: append one line per submitted entry to the
buffer, in submission order. -/
def step1Acc : List CrontabEntry → Str → Str
  | [], acc => acc
  | e :: rest, acc => step1Acc rest (acc ++ emitEntry e)

/-- Step 2 of `updateCrontab`: scan the fresh crontab lines and append every
preserved line to the buffer. -/
def step2Acc (entries : List CrontabEntry) : List Str → Str → Str
  | [], acc => acc
  | l :: rest, acc =>
    step2Acc entries rest (if step2Keep entries l then acc ++ l ++ ['\n'] else acc)

/-- The merged crontab text `updateCrontab` builds in `newCrontabContent`
from the submitted entries and the freshly listed crontab text. -/
def updateCrontabContent (entries : List CrontabEntry) (fresh : Str) : Str :=
  step2Acc entries (goLines fresh) (step1Acc entries [])

/-- `strings.Contains(haystack, needle)`: some suffix of the haystack has
the needle as a prefix. -/
def strContainsSub (haystack needle : Str) : Bool :=
  (List.range (haystack.length + 1)).any (fun i => needle.isPrefixOf (haystack.drop i))

/-- Outcome of running `crontab -l` (`cmd.Output()`): either the captured
standard output, or a non-zero exit with the captured standard error. -/
inductive CrontabListResult
  | ok (output : Str)
  | exitFailure (code : Nat) (stderr : Str)

/-- Go's rendering of a non-zero `*exec.ExitError` via `%v`:
`(*exec.ExitError).Error()` is `os.ProcessState.String()`, i.e.
`"exit status N"`; the captured stderr is not part of it. -/
def exitStatusMsg (code : Nat) : Str := str "exit status " ++ (Nat.repr code).data

/-- `getCrontab` of src/main.go (lines 78-98): an exit failure whose stderr
contains "no crontab for" yields the empty list; any other failure is
reported as `"Failed to list crontab: %v"` with the error's rendering. -/
def getCrontab (res : CrontabListResult) (startId : Nat) : Except Str (List CrontabEntry) :=
  match res with
  | .ok output => .ok (parseCrontabOutput output startId)
  | .exitFailure code stderr =>
    if strContainsSub stderr (str "no crontab for") then .ok []
    else .error (str "Failed to list crontab: " ++ exitStatusMsg code)

/-- Store text of the spec's concrete scenario 1. -/
def fooText : Str := str "*/5 * * * * /usr/bin/foo\n"

/-- The entry fetched from `fooText` (spec scenario 1). -/
def fooEntry : CrontabEntry :=
  ⟨1, str "*/5", str "*", str "*", str "*", str "*", str "/usr/bin/foo",
    str "*/5 * * * * /usr/bin/foo", [], true⟩

/-- `fooEntry` submitted with `enabled=false` (spec scenario 2). -/
def fooDisabled : CrontabEntry :=
  ⟨1, str "*/5", str "*", str "*", str "*", str "*", str "/usr/bin/foo",
    str "*/5 * * * * /usr/bin/foo", [], false⟩

/-- The new entry of the spec's concrete scenario 3. -/
def backupEntry : CrontabEntry :=
  ⟨1, str "0", str "3", str "*", str "*", str "*", str "/bin/backup.sh",
    [], [], true⟩

/-- `fooEntry` with its command edited to `/usr/bin/bar` while keeping its
original `rawLine` (the edit scenario of C1). -/
def editedEntry : CrontabEntry :=
  ⟨1, str "*/5", str "*", str "*", str "*", str "*", str "/usr/bin/bar",
    str "*/5 * * * * /usr/bin/foo", [], true⟩

/-- A degenerate submitted entry: enabled, minute `"a"`, every other field
and the command empty (used to refute idempotence as claimed). -/
def aOnlyEntry : CrontabEntry :=
  ⟨1, str "a", [], [], [], [], [], [], [], true⟩

/-- The id-independent content of an entry: the five schedule fields, the
command and the enabled flag — exactly what the round-trip property
compares (ignoring `id`, `rawLine` and `comment`). -/
structure EntryView where
  minute : Str
  hour : Str
  dayOfMonth : Str
  month : Str
  dayOfWeek : Str
  command : Str
  enabled : Bool
deriving DecidableEq

def entryView (e : CrontabEntry) : EntryView :=
  ⟨e.minute, e.hour, e.dayOfMonth, e.month, e.dayOfWeek, e.command, e.enabled⟩

/-- The per-line decision of `parseCrontabOutput`, factored out of the scan
loop: `none` means the line is skipped, `some (enabled, groups)` means an
entry with those regex groups is emitted.  `parse_cons` below proves this
agrees with `parseCrontabLines`. -/
def lineClass (l : Str) : Option (Bool × CronMatch) :=
  if goTrimSpace l == [] then none
  else if (str "#").isPrefixOf l then
    if (str "# ").isPrefixOf l then
      match matchCron (l.drop 2) with
      | some m => some (false, m)
      | none => none
    else none
  else if l.contains '=' && !((str "*").isPrefixOf l) then none
  else
    match matchCron l with
    | some m => some (true, m)
    | none => none

theorem step1Acc_eq (S : List CrontabEntry) (acc : Str) :
    step1Acc S acc = acc ++ (S.map emitEntry).flatten := by
  induction S generalizing acc with
  | nil => simp [step1Acc]
  | cons e rest ih => simp [step1Acc, ih]

theorem step2Acc_eq (S : List CrontabEntry) (ls : List Str) (acc : Str) :
    step2Acc S ls acc =
      acc ++ ((ls.filter (step2Keep S)).map (fun l => l ++ ['\n'])).flatten := by
  induction ls generalizing acc with
  | nil => simp [step2Acc]
  | cons l rest ih =>
    cases h : step2Keep S l with
    | true => simp [step2Acc, h, ih, List.filter_cons]
    | false => simp [step2Acc, h, ih, List.filter_cons]

/-- The output of the merge is the Step-1 emissions (in submission order)
followed by the preserved fresh lines (in store order). -/
theorem updateCrontab_decomp (S : List CrontabEntry) (T : Str) :
    updateCrontabContent S T =
      (S.map emitEntry).flatten ++
        (((goLines T).filter (step2Keep S)).map (fun l => l ++ ['\n'])).flatten := by
  simp [updateCrontabContent, step1Acc_eq, step2Acc_eq]

/-- Any line matching the task pattern is never preserved by Step 2: both
branches of the scan loop require `!cronRegex.MatchString(line)`. -/
theorem keep_false_of_matches (S : List CrontabEntry) (l : Str)
    (h : cronMatches l = true) : step2Keep S l = false := by
  simp only [step2Keep, h]
  cases goTrimSpace l == [] || (str "#").isPrefixOf (goTrimSpace l) <;> simp

/-- A line that does not match the task pattern, equals no submitted
entry's raw line, and does not start with `"# "` is preserved by Step 2. -/
theorem keep_true_of_unclaimed (S : List CrontabEntry) (l : Str)
    (h1 : cronMatches l = false)
    (h2 : ∀ e ∈ S, e.rawLine ≠ l)
    (h3 : (str "# ").isPrefixOf l = false) :
    step2Keep S l = true := by
  have hany : (S.any (fun e => e.rawLine == l)) = false := by
    simp only [List.any_eq_false]
    intro e he
    simp [h2 e he]
  have hany2 : (S.any fun e =>
      e.rawLine == l ||
        ((str "# ").isPrefixOf l && e.enabled && canonicalLine e == l.drop 2)) = false := by
    simp only [List.any_eq_false]
    intro e he
    simp [h2 e he, h3]
  simp only [step2Keep, h1, h3, hany, hany2]
  cases goTrimSpace l == [] || (str "#").isPrefixOf (goTrimSpace l) with
  | false => simpa using h2
  | true => simp

theorem rawLines_no_newline : ∀ (s : Str) (l : Str), l ∈ rawLines s → '\n' ∉ l := by
  intro s
  induction s with
  | nil => intro l hl; simp [rawLines] at hl
  | cons c rest ih =>
    intro l hl
    by_cases hc : c = '\n'
    · subst hc
      simp only [rawLines, beq_self_eq_true, if_true] at hl
      rcases List.mem_cons.mp hl with rfl | hl
      · simp
      · exact ih l hl
    · have hc' : (c == '\n') = false := beq_eq_false_iff_ne.mpr hc
      simp only [rawLines, hc', Bool.false_eq_true, if_false] at hl
      cases hr : rawLines rest with
      | nil =>
        rw [hr] at hl
        simp only [consHead, List.mem_singleton] at hl
        subst hl
        simp only [List.mem_singleton]
        exact fun h => hc h.symm
      | cons l0 ls =>
        rw [hr] at hl
        simp only [consHead] at hl
        rcases List.mem_cons.mp hl with rfl | hl
        · intro hmem
          rcases List.mem_cons.mp hmem with h | h
          · exact hc h.symm
          · exact ih l0 (by rw [hr]; exact List.mem_cons_self _ _) h
        · exact ih l (by rw [hr]; exact List.mem_cons_of_mem _ hl)

theorem mem_of_mem_stripCR {c : Char} {l : Str} (h : c ∈ stripCR l) : c ∈ l := by
  unfold stripCR at h
  split at h
  · exact List.dropLast_subset l h
  · exact h

theorem goLines_no_newline (T : Str) (l : Str) (h : l ∈ goLines T) : '\n' ∉ l := by
  obtain ⟨l0, hl0, rfl⟩ := List.mem_map.mp h
  intro hn
  exact rawLines_no_newline T l0 hl0 (mem_of_mem_stripCR hn)

theorem stripCR_eq_self {l : Str} (h : l.getLast? ≠ some '\r') : stripCR l = l := by
  have hb : (l.getLast? == some '\r') = false := beq_eq_false_iff_ne.mpr h
  simp [stripCR, hb]

theorem rawLines_append_newline (l s : Str) (hl : '\n' ∉ l) :
    rawLines (l ++ '\n' :: s) = l :: rawLines s := by
  induction l with
  | nil => simp [rawLines]
  | cons c t ih =>
    have hc : (c == '\n') = false := by
      refine beq_eq_false_iff_ne.mpr fun h => hl ?_
      rw [h]; exact List.mem_cons_self _ _
    have ht : '\n' ∉ t := fun h => hl (List.mem_cons_of_mem _ h)
    rw [List.cons_append]
    simp only [rawLines, hc, Bool.false_eq_true, if_false]
    rw [ih ht]
    rfl

theorem goLines_flatten (ls : List Str)
    (h : ∀ l ∈ ls, '\n' ∉ l ∧ stripCR l = l) :
    goLines ((ls.map (fun l => l ++ ['\n'])).flatten) = ls := by
  induction ls with
  | nil => simp [goLines, rawLines]
  | cons l rest ih =>
    have hl := h l (List.mem_cons_self _ _)
    have hrest := fun x hx => h x (List.mem_cons_of_mem _ hx)
    simp only [List.map_cons, List.flatten_cons]
    rw [show (l ++ ['\n']) ++ ((rest.map (fun l => l ++ ['\n'])).flatten)
        = l ++ '\n' :: ((rest.map (fun l => l ++ ['\n'])).flatten) by simp]
    unfold goLines
    rw [rawLines_append_newline _ _ hl.1]
    simp only [List.map_cons, hl.2]
    exact congrArg (l :: ·) (ih hrest)

theorem dropWhile_append_last (p : Char → Bool) (x : Char) (hx : p x = false) :
    ∀ a : Str, (a ++ [x]).dropWhile p = a.dropWhile p ++ [x] := by
  intro a
  induction a with
  | nil => simp [List.dropWhile, hx]
  | cons c t ih =>
    by_cases hc : p c = true
    · simp [List.dropWhile_cons, hc, ih]
    · have hc' : p c = false := by simpa using hc
      simp [List.dropWhile_cons, hc']

theorem goTrimSpace_hash_cons (t : Str) :
    ∃ u : Str, goTrimSpace ('#' :: t) = '#' :: u := by
  have hhash : unicodeIsSpace '#' = false := by decide
  refine ⟨(t.reverse.dropWhile unicodeIsSpace).reverse, ?_⟩
  unfold goTrimSpace
  rw [List.dropWhile_cons]
  simp only [hhash, Bool.false_eq_true, if_false]
  rw [List.reverse_cons, dropWhile_append_last _ _ hhash, List.reverse_append]
  simp

theorem prefix_hash_inv {l : Str} (h : (str "#").isPrefixOf l = true) :
    ∃ t, l = '#' :: t := by
  cases l with
  | nil => simp [str, List.isPrefixOf] at h
  | cons c t =>
    have hc : '#' = c := by simpa [str, List.isPrefixOf] using h
    exact ⟨t, by rw [← hc]⟩

/-- Any line of the form `"# " ++ x` is dropped by Step 2: the
blank/comment branch requires `!strings.HasPrefix(line, "# ")`. -/
theorem keep_false_of_hash_space (S : List CrontabEntry) (x : Str) :
    step2Keep S (str "# " ++ x) = false := by
  obtain ⟨u, hu⟩ := goTrimSpace_hash_cons (' ' :: x)
  have hl : str "# " ++ x = '#' :: ' ' :: x := rfl
  rw [hl, ]
  simp only [step2Keep, hu]
  have hp : (str "#").isPrefixOf ('#' :: u) = true := by simp [str, List.isPrefixOf]
  have hp2 : (str "# ").isPrefixOf ('#' :: ' ' :: x) = true := by
    simp [str, List.isPrefixOf]
  simp [hp, hp2]

/-- A `"#"`-prefixed line equal to some submitted entry's rawLine is
dropped by Step 2 (the `isManagedComment` check). -/
theorem keep_false_of_managed_hash (S : List CrontabEntry) (e : CrontabEntry)
    (he : e ∈ S) (hpre : (str "#").isPrefixOf e.rawLine = true) :
    step2Keep S e.rawLine = false := by
  obtain ⟨t, ht⟩ := prefix_hash_inv hpre
  obtain ⟨u, hu⟩ := goTrimSpace_hash_cons t
  have hany : (S.any (fun x => x.rawLine == e.rawLine)) = true :=
    List.any_eq_true.mpr ⟨e, he, by simp⟩
  rw [ht] at hany ⊢
  simp only [step2Keep, hu, hany]
  have hp : (str "#").isPrefixOf ('#' :: u) = true := by simp [str, List.isPrefixOf]
  simp [hp]

/-- No Step-1 emission survives the Step-2 filter, provided every enabled
entry's canonical line matches the task pattern. -/
theorem emitLine_not_kept (S : List CrontabEntry) (e : CrontabEntry) (he : e ∈ S)
    (hen : e.enabled = true → cronMatches (canonicalLine e) = true) :
    step2Keep S (emitLine e) = false := by
  cases hE : e.enabled with
  | true =>
    have h1 : emitLine e = canonicalLine e := by simp [emitLine, hE]
    rw [h1]
    exact keep_false_of_matches S _ (hen hE)
  | false =>
    by_cases hnil : e.rawLine = []
    · have h1 : emitLine e = str "# " ++ canonicalLine e := by simp [emitLine, hE, hnil]
      rw [h1]; exact keep_false_of_hash_space S _
    · by_cases hpre : (str "#").isPrefixOf e.rawLine = true
      · have h1 : emitLine e = e.rawLine := by simp [emitLine, hE, hnil, hpre]
        rw [h1]; exact keep_false_of_managed_hash S e he hpre
      · have hpre' : (str "#").isPrefixOf e.rawLine = false := Bool.eq_false_iff.mpr hpre
        have h1 : emitLine e = str "# " ++ e.rawLine := by simp [emitLine, hE, hnil, hpre']
        rw [h1]; exact keep_false_of_hash_space S _

/-- C1 counterexample: submitting an edit of an existing enabled entry
(command changed from `/usr/bin/foo` to `/usr/bin/bar`, `rawLine` kept and
present verbatim in the fresh text) does NOT produce a duplicate: the
output is exactly the new canonical line, and the stale original line does
not occur among the output's lines. -/
theorem c1_counterexample :
    updateCrontabContent [editedEntry] fooText = str "*/5 * * * * /usr/bin/bar\n" ∧
      ¬ str "*/5 * * * * /usr/bin/foo" ∈
          goLines (updateCrontabContent [editedEntry] fooText) := by
  constructor
  · decide
  · decide

/-- C1 amended: the stale original line is claimed by exact raw-line
equality, and in any case Step 2 of the merge never preserves a line that
matches the six-field task pattern (both branches of the scan loop require
the pattern not to match), so editing an enabled entry cannot duplicate its
old line; the old line is dropped and only the Step-1 canonical line
appears. -/
theorem c1_amended (S : List CrontabEntry) (l : Str) (h : cronMatches l = true) :
    step2Keep S l = false :=
  keep_false_of_matches S l h

theorem c1_amended_witness :
    cronMatches (str "1 2 3 4 5 x") = true ∧ step2Keep [] (str "1 2 3 4 5 x") = false :=
  ⟨by decide, c1_amended [] (str "1 2 3 4 5 x") (by decide)⟩

/-- C2 counterexample: the foreign comment line `"# some note"` does not
match the task pattern and equals no submitted raw line (the submitted set
is empty), yet the merge drops it: the output is empty. -/
theorem c2_counterexample :
    cronMatches (str "# some note") = false ∧
      updateCrontabContent [] (str "# some note\n") = [] := by
  constructor
  · decide
  · decide

/-- C2 amended: a fresh line that does not match the six-field task
pattern, is not equal to any submitted entry's rawLine, AND does not start
with `"# "` is preserved by Step 2; preserved lines keep their original
relative order (the preserved sequence is a sublist of the fresh lines).
Foreign comment lines starting with `"# "` are dropped, contrary to the
claim. -/
theorem c2_amended :
    (∀ (S : List CrontabEntry) (l : Str),
        cronMatches l = false → (∀ e ∈ S, e.rawLine ≠ l) →
        (str "# ").isPrefixOf l = false → step2Keep S l = true) ∧
      ∀ (S : List CrontabEntry) (T : Str),
        ((goLines T).filter (step2Keep S)).Sublist (goLines T) :=
  ⟨keep_true_of_unclaimed, fun _ _ => List.filter_sublist _⟩

theorem c2_amended_witness :
    step2Keep [] (str "FOO=bar") = true ∧
      ((goLines (str "x y\n")).filter (step2Keep [])).Sublist (goLines (str "x y\n")) :=
  ⟨c2_amended.1 [] (str "FOO=bar") (by decide) (by simp) (by decide),
    c2_amended.2 [] (str "x y\n")⟩

/-- C3: disabling an entry whose rawLine is a non-empty uncommented task
line emits exactly `"# " + rawLine` (the verbatim original, not a
field-reconstructed line); concretely, the entry fetched from
`"*/5 * * * * /usr/bin/foo\n"` submitted with `enabled=false` yields
output `"# */5 * * * * /usr/bin/foo\n"`. -/
theorem c3_toggle_fidelity :
    (∀ e : CrontabEntry, e.enabled = false → e.rawLine ≠ [] →
        (str "#").isPrefixOf e.rawLine = false →
        emitEntry e = str "# " ++ e.rawLine ++ ['\n']) ∧
      parseCrontabOutput fooText 1 = [fooEntry] ∧
      updateCrontabContent [fooDisabled] fooText = str "# */5 * * * * /usr/bin/foo\n" := by
  refine ⟨?_, by decide, by decide⟩
  intro e h1 h2 h3
  have hne : (e.rawLine == ([] : Str)) = false := by simp [h2]
  simp [emitEntry, emitLine, h1, hne, h3]

theorem c3_toggle_fidelity_witness :
    emitEntry fooDisabled = str "# " ++ fooDisabled.rawLine ++ ['\n'] :=
  c3_toggle_fidelity.1 fooDisabled (by decide) (by decide) (by decide)

/-- C4: the merge output is exactly the Step-1 emissions, one per submitted
entry in submission order, followed by the preserved fresh lines; the
preserved lines form a sublist of the fresh store lines, so their original
relative order is kept. -/
theorem c4_ordering (S : List CrontabEntry) (T : Str) :
    updateCrontabContent S T =
        (S.map emitEntry).flatten ++
          (((goLines T).filter (step2Keep S)).map (fun l => l ++ ['\n'])).flatten ∧
      ((goLines T).filter (step2Keep S)).Sublist (goLines T) :=
  ⟨updateCrontab_decomp S T, List.filter_sublist _⟩

theorem prefix_hash_space_inv {l : Str} (h : (str "# ").isPrefixOf l = true) :
    l = '#' :: ' ' :: l.drop 2 := by
  cases l with
  | nil => simp [str, List.isPrefixOf] at h
  | cons c t =>
    cases t with
    | nil => simp [str, List.isPrefixOf] at h
    | cons c2 t2 =>
      obtain ⟨hc, hc2⟩ : '#' = c ∧ ' ' = c2 := by
        simpa [str, List.isPrefixOf] using h
      simp [← hc, ← hc2]

/-- A line that is not `"#"`-prefixed and does not match the task pattern
is skipped by the parser (as blank, environment assignment, or
unrecognized). -/
theorem parse_skip_line (l : Str) (rest : List Str) (n : Nat)
    (hpre : (str "#").isPrefixOf l = false)
    (hm : cronMatches l = false) :
    parseCrontabLines (l :: rest) n = parseCrontabLines rest n := by
  have hnone : matchCron l = none := by
    cases h : matchCron l with
    | none => rfl
    | some m => rw [cronMatches, h] at hm; simp at hm
  simp only [parseCrontabLines, hpre, Bool.false_eq_true, if_false, hnone]
  cases htrim : goTrimSpace l == [] <;>
    cases henv : l.contains '=' && !((str "*").isPrefixOf l) <;> simp

/-- A `"#"`-prefixed line without the `"# "` prefix is skipped by the
parser as a foreign comment. -/
theorem parse_skip_hash (l : Str) (rest : List Str) (n : Nat)
    (hpre : (str "#").isPrefixOf l = true)
    (hpre2 : (str "# ").isPrefixOf l = false) :
    parseCrontabLines (l :: rest) n = parseCrontabLines rest n := by
  simp only [parseCrontabLines, hpre, hpre2, Bool.false_eq_true, if_false, if_true]
  cases htrim : goTrimSpace l == [] <;> simp

/-- A `"# "`-prefixed line whose remainder does not match the task pattern
is skipped by the parser as a foreign comment. -/
theorem parse_skip_hash_space (l : Str) (rest : List Str) (n : Nat)
    (hpre2 : (str "# ").isPrefixOf l = true)
    (hm : matchCron (l.drop 2) = none) :
    parseCrontabLines (l :: rest) n = parseCrontabLines rest n := by
  have hpre : (str "#").isPrefixOf l = true := by
    rw [prefix_hash_space_inv hpre2]
    simp [str, List.isPrefixOf]
  simp only [parseCrontabLines, hpre, hpre2, if_true, hm]
  cases htrim : goTrimSpace l == [] <;> simp

theorem regexSpace_unicode {c : Char} (h : regexSpace c = true) :
    unicodeIsSpace c = true := by
  simp [regexSpace] at h
  rcases h with (((rfl | rfl) | rfl) | rfl) | rfl <;> decide

theorem dropWhile_head_false {p : Char → Bool} : ∀ {l : Str} {c : Char} {t : Str},
    l.dropWhile p = c :: t → p c = false := by
  intro l
  induction l with
  | nil => intro c t h; simp [List.dropWhile] at h
  | cons a l' ih =>
    intro c t h
    rw [List.dropWhile_cons] at h
    by_cases ha : p a = true
    · rw [if_pos ha] at h; exact ih h
    · rw [if_neg ha] at h
      injection h with h1 h2
      subst h1
      exact Bool.eq_false_iff.mpr ha

theorem mem_dropWhile_of_mem {p : Char → Bool} {c : Char} (hc : p c = false) :
    ∀ {l : Str}, c ∈ l → c ∈ l.dropWhile p := by
  intro l
  induction l with
  | nil => intro h; simp at h
  | cons a t ih =>
    intro h
    rw [List.dropWhile_cons]
    by_cases ha : p a = true
    · rw [if_pos ha]
      rcases List.mem_cons.mp h with rfl | h
      · rw [ha] at hc; cases hc
      · exact ih h
    · rw [if_neg ha]; exact h

theorem mem_goTrimSpace_iff {c : Char} (hc : unicodeIsSpace c = false) (l : Str) :
    c ∈ goTrimSpace l ↔ c ∈ l := by
  unfold goTrimSpace
  constructor
  · intro h
    rw [List.mem_reverse] at h
    have h2 := (List.dropWhile_sublist unicodeIsSpace).subset h
    rw [List.mem_reverse] at h2
    exact (List.dropWhile_sublist unicodeIsSpace).subset h2
  · intro h
    rw [List.mem_reverse]
    apply mem_dropWhile_of_mem hc
    rw [List.mem_reverse]
    exact mem_dropWhile_of_mem hc h

theorem goTrimSpace_eq_nil_iff (l : Str) :
    goTrimSpace l = [] ↔ ∀ c ∈ l, unicodeIsSpace c = true := by
  constructor
  · intro h c hc
    by_contra hns
    have hns' : unicodeIsSpace c = false := Bool.eq_false_iff.mpr hns
    have hmem : c ∈ goTrimSpace l := (mem_goTrimSpace_iff hns' l).mpr hc
    rw [h] at hmem; simp at hmem
  · intro h
    unfold goTrimSpace
    have h1 : l.dropWhile unicodeIsSpace = [] := List.dropWhile_eq_nil_iff.mpr h
    simp [h1]

theorem dropWhile_isSuffix (p : Char → Bool) (l : Str) : l.dropWhile p <:+ l := by
  induction l with
  | nil => exact List.suffix_refl _
  | cons a t ih =>
    rw [List.dropWhile_cons]
    by_cases ha : p a = true
    · rw [if_pos ha]; exact ih.trans (List.suffix_cons a t)
    · rw [if_neg ha]

theorem dropWhile_eq_self_head {p : Char → Bool} {l : Str}
    (h : l = [] ∨ ∃ c t, l = c :: t ∧ p c = false) : l.dropWhile p = l := by
  rcases h with rfl | ⟨c, t, rfl, hc⟩
  · rfl
  · rw [List.dropWhile_cons, if_neg (by simp [hc])]

theorem dropWhile_idem (p : Char → Bool) (l : Str) :
    (l.dropWhile p).dropWhile p = l.dropWhile p := by
  apply dropWhile_eq_self_head
  cases h : l.dropWhile p with
  | nil => exact Or.inl rfl
  | cons c t => exact Or.inr ⟨c, t, rfl, dropWhile_head_false h⟩

theorem goTrimSpace_head (l : Str) :
    goTrimSpace l = [] ∨
      ∃ c t, goTrimSpace l = c :: t ∧ unicodeIsSpace c = false := by
  cases hg : goTrimSpace l with
  | nil => exact Or.inl rfl
  | cons c t =>
    refine Or.inr ⟨c, t, rfl, ?_⟩
    have hgz : goTrimSpace l =
        ((l.dropWhile unicodeIsSpace).reverse.dropWhile unicodeIsSpace).reverse := rfl
    have hzne : (l.dropWhile unicodeIsSpace).reverse.dropWhile unicodeIsSpace ≠ [] := by
      intro h0
      rw [hgz, h0] at hg
      simp at hg
    obtain ⟨w, hw⟩ :=
      dropWhile_isSuffix unicodeIsSpace (l.dropWhile unicodeIsSpace).reverse
    have hc3 : ((l.dropWhile unicodeIsSpace).reverse.dropWhile unicodeIsSpace).getLast?
        = ((l.dropWhile unicodeIsSpace).reverse).getLast? := by
      conv_rhs => rw [← hw]
      rw [List.getLast?_append]
      cases hzl :
          ((l.dropWhile unicodeIsSpace).reverse.dropWhile unicodeIsSpace).getLast? with
      | none => exact absurd (List.getLast?_eq_none_iff.mp hzl) hzne
      | some a => rfl
    have hdne : l.dropWhile unicodeIsSpace ≠ [] := by
      intro h0
      apply hzne
      rw [h0]
      rfl
    cases hdd : l.dropWhile unicodeIsSpace with
    | nil => exact absurd hdd hdne
    | cons a d' =>
      have hpa : unicodeIsSpace a = false := dropWhile_head_false hdd
      have hchain : (goTrimSpace l).head? = some a := by
        rw [hgz, List.head?_reverse, hc3, List.getLast?_reverse, hdd]
        rfl
      rw [hg] at hchain
      injection hchain with hca
      rw [hca]
      exact hpa

theorem goTrimSpace_getLast (l : Str) :
    goTrimSpace l = [] ∨
      ∃ c, (goTrimSpace l).getLast? = some c ∧ unicodeIsSpace c = false := by
  cases hzz : (l.dropWhile unicodeIsSpace).reverse.dropWhile unicodeIsSpace with
  | nil =>
    left
    show ((l.dropWhile unicodeIsSpace).reverse.dropWhile unicodeIsSpace).reverse = []
    rw [hzz]
    rfl
  | cons a z' =>
    right
    refine ⟨a, ?_, dropWhile_head_false hzz⟩
    show (((l.dropWhile unicodeIsSpace).reverse.dropWhile unicodeIsSpace).reverse).getLast?
        = some a
    rw [List.getLast?_reverse, hzz]
    rfl

theorem goTrimSpace_idem (l : Str) : goTrimSpace (goTrimSpace l) = goTrimSpace l := by
  have h1 : (goTrimSpace l).dropWhile unicodeIsSpace = goTrimSpace l :=
    dropWhile_eq_self_head (by
      rcases goTrimSpace_head l with h | ⟨c, t, h, hc⟩
      · exact Or.inl h
      · exact Or.inr ⟨c, t, h, hc⟩)
  show (((goTrimSpace l).dropWhile unicodeIsSpace).reverse.dropWhile unicodeIsSpace).reverse
      = goTrimSpace l
  rw [h1]
  have h2 : (goTrimSpace l).reverse.dropWhile unicodeIsSpace = (goTrimSpace l).reverse := by
    have hrev : (goTrimSpace l).reverse
        = (l.dropWhile unicodeIsSpace).reverse.dropWhile unicodeIsSpace := by
      show ((((l.dropWhile unicodeIsSpace).reverse.dropWhile unicodeIsSpace)).reverse).reverse = _
      rw [List.reverse_reverse]
    rw [hrev]
    exact dropWhile_idem _ _
  rw [h2, List.reverse_reverse]

theorem takeWhile_all_append (p : Char → Bool) (a b : Str)
    (ha : ∀ c ∈ a, p c = true) :
    (a ++ b).takeWhile p = a ++ b.takeWhile p ∧
      (a ++ b).dropWhile p = b.dropWhile p := by
  induction a with
  | nil => simp
  | cons x a' ih =>
    have hx : p x = true := ha x (List.mem_cons_self _ _)
    have ha' : ∀ c ∈ a', p c = true := fun c hc => ha c (List.mem_cons_of_mem _ hc)
    obtain ⟨h1, h2⟩ := ih ha'
    constructor
    · rw [List.cons_append, List.takeWhile_cons, if_pos hx, h1, List.cons_append]
    · rw [List.cons_append, List.dropWhile_cons, if_pos hx, h2]

theorem span_field (fi R : Str) (hi : fi ≠ [])
    (gi : ∀ x ∈ fi, regexSpace x = false) :
    ((fi ++ ' ' :: R).takeWhile (fun c => !regexSpace c) = fi) ∧
      ((fi ++ ' ' :: R).dropWhile (fun c => !regexSpace c) = ' ' :: R) := by
  have ha : ∀ c ∈ fi, (fun c => !regexSpace c) c = true := by
    intro c hc; simp [gi c hc]
  obtain ⟨h1, h2⟩ := takeWhile_all_append _ fi (' ' :: R) ha
  have hsp : ¬ ((fun c => !regexSpace c) ' ' = true) := by decide
  constructor
  · rw [h1, List.takeWhile_cons, if_neg hsp, List.append_nil]
  · rw [h2, List.dropWhile_cons, if_neg hsp]

theorem span_space (R : Str)
    (hR : R = [] ∨ ∃ d t, R = d :: t ∧ regexSpace d = false) :
    ((' ' :: R).takeWhile regexSpace = [' ']) ∧
      ((' ' :: R).dropWhile regexSpace = R) := by
  have hsp : regexSpace ' ' = true := by decide
  have htw : R.takeWhile regexSpace = [] ∧ R.dropWhile regexSpace = R := by
    rcases hR with rfl | ⟨d, t, rfl, hd⟩
    · exact ⟨rfl, rfl⟩
    · constructor
      · rw [List.takeWhile_cons, if_neg (by simp [hd])]
      · rw [List.dropWhile_cons, if_neg (by simp [hd])]
  constructor
  · rw [List.takeWhile_cons, if_pos hsp, htw.1]
  · rw [List.dropWhile_cons, if_pos hsp, htw.2]

theorem cons_head_of_field (fi R : Str) (hi : fi ≠ [])
    (gi : ∀ x ∈ fi, regexSpace x = false) :
    ∃ d t, fi ++ ' ' :: R = d :: t ∧ regexSpace d = false := by
  cases fi with
  | nil => exact absurd rfl hi
  | cons d t' => exact ⟨d, t' ++ ' ' :: R, rfl, gi d (List.mem_cons_self _ _)⟩

theorem isEmpty_false_of_ne_nil {x : Str} (hx : x ≠ []) : x.isEmpty = false := by
  cases x with
  | nil => exact absurd rfl hx
  | cons a t => rfl

/-- The canonical six-field joined line, with non-empty whitespace-free
fields and a command with no leading space character, matches the cron
pattern with exactly those groups. -/
theorem matchCron_canonical (f1 f2 f3 f4 f5 c : Str)
    (h1 : f1 ≠ []) (h2 : f2 ≠ []) (h3 : f3 ≠ []) (h4 : f4 ≠ []) (h5 : f5 ≠ [])
    (g1 : ∀ x ∈ f1, regexSpace x = false) (g2 : ∀ x ∈ f2, regexSpace x = false)
    (g3 : ∀ x ∈ f3, regexSpace x = false) (g4 : ∀ x ∈ f4, regexSpace x = false)
    (g5 : ∀ x ∈ f5, regexSpace x = false)
    (hc : c = [] ∨ ∃ d t, c = d :: t ∧ regexSpace d = false)
    (hn : '\n' ∉ c) :
    matchCron (f1 ++ ' ' :: (f2 ++ ' ' :: (f3 ++ ' ' :: (f4 ++ ' ' :: (f5 ++ ' ' :: c)))))
      = some ⟨f1, f2, f3, f4, f5, c⟩ := by
  obtain ⟨tw1, dw1⟩ :=
    span_field f1 (f2 ++ ' ' :: (f3 ++ ' ' :: (f4 ++ ' ' :: (f5 ++ ' ' :: c)))) h1 g1
  obtain ⟨sw1, sd1⟩ := span_space (f2 ++ ' ' :: (f3 ++ ' ' :: (f4 ++ ' ' :: (f5 ++ ' ' :: c))))
    (Or.inr (cons_head_of_field f2 _ h2 g2))
  obtain ⟨tw2, dw2⟩ := span_field f2 (f3 ++ ' ' :: (f4 ++ ' ' :: (f5 ++ ' ' :: c))) h2 g2
  obtain ⟨sw2, sd2⟩ := span_space (f3 ++ ' ' :: (f4 ++ ' ' :: (f5 ++ ' ' :: c)))
    (Or.inr (cons_head_of_field f3 _ h3 g3))
  obtain ⟨tw3, dw3⟩ := span_field f3 (f4 ++ ' ' :: (f5 ++ ' ' :: c)) h3 g3
  obtain ⟨sw3, sd3⟩ := span_space (f4 ++ ' ' :: (f5 ++ ' ' :: c))
    (Or.inr (cons_head_of_field f4 _ h4 g4))
  obtain ⟨tw4, dw4⟩ := span_field f4 (f5 ++ ' ' :: c) h4 g4
  obtain ⟨sw4, sd4⟩ := span_space (f5 ++ ' ' :: c)
    (Or.inr (cons_head_of_field f5 _ h5 g5))
  obtain ⟨tw5, dw5⟩ := span_field f5 c h5 g5
  obtain ⟨sw5, sd5⟩ := span_space c hc
  have hcontains : c.contains '\n' = false :=
    Bool.eq_false_iff.mpr fun hcon => hn (List.mem_of_elem_eq_true hcon)
  simp only [matchCron, tw1, dw1, sw1, sd1, tw2, dw2, sw2, sd2, tw3, dw3, sw3, sd3,
    tw4, dw4, sw4, sd4, tw5, dw5, sw5, sd5]
  simp [isEmpty_false_of_ne_nil h1, isEmpty_false_of_ne_nil h2, isEmpty_false_of_ne_nil h3,
    isEmpty_false_of_ne_nil h4, isEmpty_false_of_ne_nil h5, hcontains, hn]

/-- Inversion of a successful cron-pattern match: the line decomposes into
the five non-empty whitespace-free fields separated by whitespace runs,
followed by the remainder group. -/
theorem matchCron_some_decomp {l : Str} {m : CronMatch} (h : matchCron l = some m) :
    (∃ s1 s2 s3 s4 s5 : Str,
      l = m.f1 ++ (s1 ++ (m.f2 ++ (s2 ++ (m.f3 ++ (s3 ++ (m.f4 ++
        (s4 ++ (m.f5 ++ (s5 ++ m.rest))))))))) ∧
      (∀ x ∈ s1, regexSpace x = true) ∧ (∀ x ∈ s2, regexSpace x = true) ∧
      (∀ x ∈ s3, regexSpace x = true) ∧ (∀ x ∈ s4, regexSpace x = true) ∧
      (∀ x ∈ s5, regexSpace x = true)) ∧
    (m.f1 ≠ [] ∧ m.f2 ≠ [] ∧ m.f3 ≠ [] ∧ m.f4 ≠ [] ∧ m.f5 ≠ []) ∧
    ((∀ x ∈ m.f1, regexSpace x = false) ∧ (∀ x ∈ m.f2, regexSpace x = false) ∧
     (∀ x ∈ m.f3, regexSpace x = false) ∧ (∀ x ∈ m.f4, regexSpace x = false) ∧
     (∀ x ∈ m.f5, regexSpace x = false)) := by
  simp only [matchCron] at h
  split at h
  · exact absurd h (by simp)
  · next hG =>
    injection h with hm
    subst hm
    dsimp only
    simp only [Bool.or_eq_true, not_or] at hG
    obtain ⟨⟨⟨⟨⟨⟨⟨⟨⟨⟨hg1, hg2⟩, hg3⟩, hg4⟩, hg5⟩, hg6⟩, hg7⟩, hg8⟩, hg9⟩, hg10⟩, hg11⟩ := hG
    have hne : ∀ {x : Str}, ¬(x.isEmpty = true) → x ≠ [] := by
      intro x hx h0
      exact hx (by rw [h0]; rfl)
    refine ⟨⟨List.takeWhile regexSpace (List.dropWhile (fun c => !regexSpace c) l),
      List.takeWhile regexSpace
        (List.dropWhile (fun c => !regexSpace c)
          (List.dropWhile regexSpace (List.dropWhile (fun c => !regexSpace c) l))),
      List.takeWhile regexSpace
        (List.dropWhile (fun c => !regexSpace c)
          (List.dropWhile regexSpace
            (List.dropWhile (fun c => !regexSpace c)
              (List.dropWhile regexSpace (List.dropWhile (fun c => !regexSpace c) l))))),
      List.takeWhile regexSpace
        (List.dropWhile (fun c => !regexSpace c)
          (List.dropWhile regexSpace
            (List.dropWhile (fun c => !regexSpace c)
              (List.dropWhile regexSpace
                (List.dropWhile (fun c => !regexSpace c)
                  (List.dropWhile regexSpace (List.dropWhile (fun c => !regexSpace c) l))))))),
      List.takeWhile regexSpace
        (List.dropWhile (fun c => !regexSpace c)
          (List.dropWhile regexSpace
            (List.dropWhile (fun c => !regexSpace c)
              (List.dropWhile regexSpace
                (List.dropWhile (fun c => !regexSpace c)
                  (List.dropWhile regexSpace
                    (List.dropWhile (fun c => !regexSpace c)
                      (List.dropWhile regexSpace
                        (List.dropWhile (fun c => !regexSpace c) l))))))))),
      ?_, ?_, ?_, ?_, ?_, ?_⟩,
      ⟨hne hg1, hne hg3, hne hg5, hne hg7, hne hg9⟩, ?_, ?_, ?_, ?_, ?_⟩
    · rw [List.takeWhile_append_dropWhile, List.takeWhile_append_dropWhile,
        List.takeWhile_append_dropWhile, List.takeWhile_append_dropWhile,
        List.takeWhile_append_dropWhile, List.takeWhile_append_dropWhile,
        List.takeWhile_append_dropWhile, List.takeWhile_append_dropWhile,
        List.takeWhile_append_dropWhile, List.takeWhile_append_dropWhile]
    · exact fun x hx => List.mem_takeWhile_imp hx
    · exact fun x hx => List.mem_takeWhile_imp hx
    · exact fun x hx => List.mem_takeWhile_imp hx
    · exact fun x hx => List.mem_takeWhile_imp hx
    · exact fun x hx => List.mem_takeWhile_imp hx
    · exact fun x hx => by
        have := List.mem_takeWhile_imp hx
        simpa using this
    · exact fun x hx => by
        have := List.mem_takeWhile_imp hx
        simpa using this
    · exact fun x hx => by
        have := List.mem_takeWhile_imp hx
        simpa using this
    · exact fun x hx => by
        have := List.mem_takeWhile_imp hx
        simpa using this
    · exact fun x hx => by
        have := List.mem_takeWhile_imp hx
        simpa using this

/-- One step of the parser's scan loop agrees with the factored per-line
decision `lineClass`. -/
theorem parse_cons (l : Str) (rest : List Str) (n : Nat) :
    parseCrontabLines (l :: rest) n =
      match lineClass l with
      | some (b, m) => entryOfMatch n m l b :: parseCrontabLines rest (n + 1)
      | none => parseCrontabLines rest n := by
  by_cases h1 : (goTrimSpace l == []) = true
  · simp [parseCrontabLines, lineClass, h1]
  · have h1' : (goTrimSpace l == []) = false := Bool.eq_false_iff.mpr h1
    by_cases h2 : ((str "#").isPrefixOf l) = true
    · by_cases h3 : ((str "# ").isPrefixOf l) = true
      · cases hm : matchCron (l.drop 2) with
        | none => simp [parseCrontabLines, lineClass, h1', h2, h3, hm]
        | some mm => simp [parseCrontabLines, lineClass, h1', h2, h3, hm]
      · have h3' : ((str "# ").isPrefixOf l) = false := Bool.eq_false_iff.mpr h3
        simp [parseCrontabLines, lineClass, h1', h2, h3']
    · have h2' : ((str "#").isPrefixOf l) = false := Bool.eq_false_iff.mpr h2
      by_cases h4 : '=' ∈ l ∧ (str "*").isPrefixOf l = false
      · simp [parseCrontabLines, lineClass, h1', h2', h4]
      · cases hm : matchCron l with
        | none => simp [parseCrontabLines, lineClass, h1', h2', h4, hm]
        | some mm => simp [parseCrontabLines, lineClass, h1', h2', h4, hm]

/-- The entry views produced by the parser do not depend on the starting
value of the `nextEntryID` counter. -/
theorem parse_view_id_indep (ls : List Str) : ∀ n m : Nat,
    (parseCrontabLines ls n).map entryView = (parseCrontabLines ls m).map entryView := by
  induction ls with
  | nil => intro n m; rfl
  | cons l rest ih =>
    intro n m
    rw [parse_cons, parse_cons]
    cases lineClass l with
    | none => exact ih n m
    | some p =>
      obtain ⟨b, mm⟩ := p
      simp only [List.map_cons]
      rw [ih (n + 1) (m + 1)]
      rfl

/-- The parsed views of a line list are the concatenation of the views of
each line parsed alone. -/
theorem parse_view_flatMap (ls : List Str) : ∀ n : Nat,
    (parseCrontabLines ls n).map entryView =
      (ls.map (fun l => (parseCrontabLines [l] 0).map entryView)).flatten := by
  induction ls with
  | nil => intro n; rfl
  | cons l rest ih =>
    intro n
    rw [parse_cons]
    cases hc : lineClass l with
    | none =>
      have hsingle : parseCrontabLines [l] 0 = [] := by
        rw [parse_cons, hc]
        rfl
      simp only [List.map_cons, List.flatten_cons, hsingle, List.map_nil, List.nil_append]
      exact ih n
    | some p =>
      obtain ⟨b, mm⟩ := p
      have hsingle : parseCrontabLines [l] 0 = [entryOfMatch 0 mm l b] := by
        rw [parse_cons, hc]
        rfl
      simp only [List.map_cons, List.flatten_cons, hsingle, List.map_nil,
        List.singleton_append]
      rw [ih (n + 1)]
      rfl

/-- Every parsed entry originates from some input line, with its `lineClass`
decision recorded. -/
theorem parse_mem_source (ls : List Str) : ∀ (n : Nat) (e : CrontabEntry),
    e ∈ parseCrontabLines ls n →
    ∃ l ∈ ls, ∃ (b : Bool) (mm : CronMatch),
      lineClass l = some (b, mm) ∧ e = entryOfMatch e.id mm l b := by
  induction ls with
  | nil => intro n e he; simp [parseCrontabLines] at he
  | cons l rest ih =>
    intro n e he
    rw [parse_cons] at he
    cases hc : lineClass l with
    | none =>
      rw [hc] at he
      obtain ⟨l', hl', hrest⟩ := ih n e he
      exact ⟨l', List.mem_cons_of_mem _ hl', hrest⟩
    | some p =>
      obtain ⟨b, mm⟩ := p
      rw [hc] at he
      rcases List.mem_cons.mp he with rfl | he
      · exact ⟨l, List.mem_cons_self _ _, b, mm, hc, rfl⟩
      · obtain ⟨l', hl', hrest⟩ := ih (n + 1) e he
        exact ⟨l', List.mem_cons_of_mem _ hl', hrest⟩

/-- Inversion of an enabled `lineClass` decision. -/
theorem lineClass_some_true {l : Str} {mm : CronMatch}
    (h : lineClass l = some (true, mm)) :
    (goTrimSpace l == []) = false ∧ (str "#").isPrefixOf l = false ∧
      (l.contains '=' && !((str "*").isPrefixOf l)) = false ∧ matchCron l = some mm := by
  unfold lineClass at h
  by_cases h1 : (goTrimSpace l == []) = true
  · rw [if_pos h1] at h; exact absurd h (by simp)
  · rw [if_neg h1] at h
    by_cases h2 : ((str "#").isPrefixOf l) = true
    · rw [if_pos h2] at h
      by_cases h3 : ((str "# ").isPrefixOf l) = true
      · rw [if_pos h3] at h
        cases hm : matchCron (l.drop 2) with
        | none => rw [hm] at h; exact absurd h (by simp)
        | some m2 =>
          rw [hm] at h
          injection h with h'
          injection h' with ha hb
          exact absurd ha (by simp)
      · rw [if_neg h3] at h; exact absurd h (by simp)
    · rw [if_neg h2] at h
      by_cases h4 : (l.contains '=' && !((str "*").isPrefixOf l)) = true
      · rw [if_pos h4] at h; exact absurd h (by simp)
      · rw [if_neg h4] at h
        cases hm : matchCron l with
        | none => rw [hm] at h; exact absurd h (by simp)
        | some m2 =>
          rw [hm] at h
          injection h with h'
          injection h' with ha hb
          exact ⟨Bool.eq_false_iff.mpr h1, Bool.eq_false_iff.mpr h2,
            Bool.eq_false_iff.mpr h4, by rw [hb]⟩

/-- Inversion of a disabled `lineClass` decision. -/
theorem lineClass_some_false {l : Str} {mm : CronMatch}
    (h : lineClass l = some (false, mm)) :
    (goTrimSpace l == []) = false ∧ (str "#").isPrefixOf l = true ∧
      (str "# ").isPrefixOf l = true ∧ matchCron (l.drop 2) = some mm := by
  unfold lineClass at h
  by_cases h1 : (goTrimSpace l == []) = true
  · rw [if_pos h1] at h; exact absurd h (by simp)
  · rw [if_neg h1] at h
    by_cases h2 : ((str "#").isPrefixOf l) = true
    · rw [if_pos h2] at h
      by_cases h3 : ((str "# ").isPrefixOf l) = true
      · rw [if_pos h3] at h
        cases hm : matchCron (l.drop 2) with
        | none => rw [hm] at h; exact absurd h (by simp)
        | some m2 =>
          rw [hm] at h
          injection h with h'
          injection h' with ha hb
          exact ⟨Bool.eq_false_iff.mpr h1, h2, h3, by rw [hb]⟩
      · rw [if_neg h3] at h; exact absurd h (by simp)
    · rw [if_neg h2] at h
      by_cases h4 : (l.contains '=' && !((str "*").isPrefixOf l)) = true
      · rw [if_pos h4] at h; exact absurd h (by simp)
      · rw [if_neg h4] at h
        cases hm : matchCron l with
        | none => rw [hm] at h; exact absurd h (by simp)
        | some m2 =>
          rw [hm] at h
          injection h with h'
          injection h' with ha hb
          exact absurd ha (by simp)

theorem mem_of_mem_goTrimSpace {c : Char} {l : Str} (h : c ∈ goTrimSpace l) : c ∈ l := by
  unfold goTrimSpace at h
  rw [List.mem_reverse] at h
  have h2 := (List.dropWhile_sublist unicodeIsSpace).subset h
  rw [List.mem_reverse] at h2
  exact (List.dropWhile_sublist unicodeIsSpace).subset h2

theorem mem_of_mem_rawLines : ∀ (s : Str) (l : Str), l ∈ rawLines s → ∀ c ∈ l, c ∈ s := by
  intro s
  induction s with
  | nil => intro l hl; simp [rawLines] at hl
  | cons a rest ih =>
    intro l hl c hc
    by_cases ha : a = '\n'
    · subst ha
      simp only [rawLines, beq_self_eq_true, if_true] at hl
      rcases List.mem_cons.mp hl with rfl | hl
      · simp at hc
      · exact List.mem_cons_of_mem _ (ih l hl c hc)
    · have ha' : (a == '\n') = false := beq_eq_false_iff_ne.mpr ha
      simp only [rawLines, ha', Bool.false_eq_true, if_false] at hl
      cases hr : rawLines rest with
      | nil =>
        rw [hr] at hl
        simp only [consHead, List.mem_singleton] at hl
        subst hl
        rcases List.mem_cons.mp hc with rfl | hc
        · exact List.mem_cons_self _ _
        · simp at hc
      | cons l0 ls =>
        rw [hr] at hl
        simp only [consHead] at hl
        rcases List.mem_cons.mp hl with rfl | hl
        · rcases List.mem_cons.mp hc with rfl | hc
          · exact List.mem_cons_self _ _
          · exact List.mem_cons_of_mem _
              (ih l0 (by rw [hr]; exact List.mem_cons_self _ _) c hc)
        · exact List.mem_cons_of_mem _
            (ih l (by rw [hr]; exact List.mem_cons_of_mem _ hl) c hc)

theorem goLines_chars (T : Str) (l : Str) (hl : l ∈ goLines T) : ∀ c ∈ l, c ∈ T := by
  obtain ⟨l0, hl0, rfl⟩ := List.mem_map.mp hl
  intro c hc
  exact mem_of_mem_rawLines T l0 hl0 c (mem_of_mem_stripCR hc)

theorem stripCR_eq_self_of_not_mem {l : Str} (h : '\r' ∉ l) : stripCR l = l := by
  apply stripCR_eq_self
  intro hlast
  exact h (List.mem_of_mem_getLast? hlast)

theorem contains_congr {c : Char} {A B : Str} (h : c ∈ A ↔ c ∈ B) :
    A.contains c = B.contains c := by
  cases hA : A.contains c with
  | true =>
    have hmem : c ∈ A := List.mem_of_elem_eq_true hA
    exact (List.elem_eq_true_of_mem (h.mp hmem)).symm
  | false =>
    cases hB : B.contains c with
    | true =>
      have hmem : c ∈ B := List.mem_of_elem_eq_true hB
      have hA2 : A.contains c = true := List.elem_eq_true_of_mem (h.mpr hmem)
      rw [hA2] at hA
      exact absurd hA (by decide)
    | false => rfl

theorem prefix_single_cons (a d : Char) (X : Str) :
    ([a] : Str).isPrefixOf (d :: X) = (a == d) := by
  simp [List.isPrefixOf]

theorem canonical_entry_eq (n : Nat) (mm : CronMatch) (l : Str) (b : Bool) :
    canonicalLine (entryOfMatch n mm l b) =
      mm.f1 ++ ' ' :: (mm.f2 ++ ' ' :: (mm.f3 ++ ' ' :: (mm.f4 ++ ' ' ::
        (mm.f5 ++ ' ' :: goTrimSpace mm.rest)))) := by
  simp [canonicalLine, entryOfMatch, List.append_assoc, List.singleton_append]

/-- Characters with the Unicode-space property excluded occur in a matched
line exactly when they occur in its canonical reconstruction. -/
theorem mem_canonical_iff {l : Str} {mm : CronMatch} {s1 s2 s3 s4 s5 : Str}
    (hdecomp : l = mm.f1 ++ (s1 ++ (mm.f2 ++ (s2 ++ (mm.f3 ++ (s3 ++ (mm.f4 ++
      (s4 ++ (mm.f5 ++ (s5 ++ mm.rest))))))))))
    (hs1 : ∀ x ∈ s1, regexSpace x = true) (hs2 : ∀ x ∈ s2, regexSpace x = true)
    (hs3 : ∀ x ∈ s3, regexSpace x = true) (hs4 : ∀ x ∈ s4, regexSpace x = true)
    (hs5 : ∀ x ∈ s5, regexSpace x = true)
    {ch : Char} (hu : unicodeIsSpace ch = false) :
    ch ∈ l ↔ ch ∈ mm.f1 ++ ' ' :: (mm.f2 ++ ' ' :: (mm.f3 ++ ' ' :: (mm.f4 ++ ' ' ::
      (mm.f5 ++ ' ' :: goTrimSpace mm.rest)))) := by
  have hsp : ch ≠ ' ' := by
    intro h0
    rw [h0] at hu
    exact absurd hu (by decide)
  have hcontra : ∀ {s : Str}, (∀ x ∈ s, regexSpace x = true) → ch ∈ s → False := by
    intro s hs hmem
    have := regexSpace_unicode (hs ch hmem)
    rw [this] at hu
    exact absurd hu (by decide)
  constructor
  · intro h
    rw [hdecomp] at h
    simp only [List.mem_append, List.mem_cons] at h ⊢
    rcases h with h | h | h | h | h | h | h | h | h | h | h
    · exact Or.inl h
    · exact absurd h (fun hh => hcontra hs1 hh)
    · exact Or.inr (Or.inr (Or.inl h))
    · exact absurd h (fun hh => hcontra hs2 hh)
    · exact Or.inr (Or.inr (Or.inr (Or.inr (Or.inl h))))
    · exact absurd h (fun hh => hcontra hs3 hh)
    · exact Or.inr (Or.inr (Or.inr (Or.inr (Or.inr (Or.inr (Or.inl h))))))
    · exact absurd h (fun hh => hcontra hs4 hh)
    · exact Or.inr (Or.inr (Or.inr (Or.inr (Or.inr (Or.inr (Or.inr (Or.inr (Or.inl h))))))))
    · exact absurd h (fun hh => hcontra hs5 hh)
    · exact Or.inr (Or.inr (Or.inr (Or.inr (Or.inr (Or.inr (Or.inr (Or.inr (Or.inr
        (Or.inr ((mem_goTrimSpace_iff hu mm.rest).mpr h))))))))))
  · intro h
    rw [hdecomp]
    simp only [List.mem_append, List.mem_cons] at h ⊢
    rcases h with h | h | h | h | h | h | h | h | h | h | h
    · exact Or.inl h
    · exact absurd h hsp
    · exact Or.inr (Or.inr (Or.inl h))
    · exact absurd h hsp
    · exact Or.inr (Or.inr (Or.inr (Or.inr (Or.inl h))))
    · exact absurd h hsp
    · exact Or.inr (Or.inr (Or.inr (Or.inr (Or.inr (Or.inr (Or.inl h))))))
    · exact absurd h hsp
    · exact Or.inr (Or.inr (Or.inr (Or.inr (Or.inr (Or.inr (Or.inr (Or.inr (Or.inl h))))))))
    · exact absurd h hsp
    · exact Or.inr (Or.inr (Or.inr (Or.inr (Or.inr (Or.inr (Or.inr (Or.inr (Or.inr
        (Or.inr (mem_of_mem_goTrimSpace h))))))))))

/-- Re-parsing the canonical line of an enabled parsed entry classifies it
as an enabled task line with the same fields and the trimmed command. -/
theorem lineClass_canonical {l : Str} {mm : CronMatch}
    (hl : lineClass l = some (true, mm)) (hln : '\n' ∉ l) :
    lineClass (mm.f1 ++ ' ' :: (mm.f2 ++ ' ' :: (mm.f3 ++ ' ' :: (mm.f4 ++ ' ' ::
        (mm.f5 ++ ' ' :: goTrimSpace mm.rest))))) =
      some (true, ⟨mm.f1, mm.f2, mm.f3, mm.f4, mm.f5, goTrimSpace mm.rest⟩) := by
  obtain ⟨htrim, hpre, henv, hm⟩ := lineClass_some_true hl
  obtain ⟨⟨s1, s2, s3, s4, s5, hdecomp, hs1, hs2, hs3, hs4, hs5⟩,
    ⟨hf1, hf2, hf3, hf4, hf5⟩, hg1, hg2, hg3, hg4, hg5⟩ := matchCron_some_decomp hm
  have hchead : goTrimSpace mm.rest = [] ∨
      ∃ d t, goTrimSpace mm.rest = d :: t ∧ regexSpace d = false := by
    rcases goTrimSpace_head mm.rest with h0 | ⟨d, t, hdt, hd⟩
    · exact Or.inl h0
    · refine Or.inr ⟨d, t, hdt, Bool.eq_false_iff.mpr fun hreg => ?_⟩
      have := regexSpace_unicode hreg
      rw [this] at hd
      exact absurd hd (by decide)
  have hnc : '\n' ∉ goTrimSpace mm.rest := by
    intro hmem
    apply hln
    rw [hdecomp]
    have : '\n' ∈ mm.rest := mem_of_mem_goTrimSpace hmem
    simp only [List.mem_append]
    exact Or.inr (Or.inr (Or.inr (Or.inr (Or.inr (Or.inr (Or.inr (Or.inr (Or.inr
      (Or.inr this)))))))))
  have hmc : matchCron (mm.f1 ++ ' ' :: (mm.f2 ++ ' ' :: (mm.f3 ++ ' ' :: (mm.f4 ++ ' ' ::
      (mm.f5 ++ ' ' :: goTrimSpace mm.rest))))) =
      some ⟨mm.f1, mm.f2, mm.f3, mm.f4, mm.f5, goTrimSpace mm.rest⟩ :=
    matchCron_canonical _ _ _ _ _ _ hf1 hf2 hf3 hf4 hf5 hg1 hg2 hg3 hg4 hg5 hchead hnc
  have hLne : goTrimSpace l ≠ [] := by
    intro h0
    rw [h0] at htrim
    exact absurd htrim (by decide)
  have htrimCL : (goTrimSpace (mm.f1 ++ ' ' :: (mm.f2 ++ ' ' :: (mm.f3 ++ ' ' ::
      (mm.f4 ++ ' ' :: (mm.f5 ++ ' ' :: goTrimSpace mm.rest))))) == []) = false := by
    rw [beq_eq_false_iff_ne]
    intro h0
    rcases goTrimSpace_head l with h | ⟨ch, t, hcht, hchs⟩
    · exact hLne h
    · have hchl : ch ∈ l :=
        mem_of_mem_goTrimSpace (by rw [hcht]; exact List.mem_cons_self _ _)
      have hchCL := (mem_canonical_iff hdecomp hs1 hs2 hs3 hs4 hs5 hchs).mp hchl
      have := (goTrimSpace_eq_nil_iff _).mp h0 ch hchCL
      rw [hchs] at this
      exact absurd this (by decide)
  have hheadl : ∃ d fr, mm.f1 = d :: fr ∧ l = d :: (fr ++ (s1 ++ (mm.f2 ++ (s2 ++
      (mm.f3 ++ (s3 ++ (mm.f4 ++ (s4 ++ (mm.f5 ++ (s5 ++ mm.rest)))))))))) := by
    cases hf : mm.f1 with
    | nil => exact absurd hf hf1
    | cons d fr => exact ⟨d, fr, rfl, by rw [hdecomp, hf]; rfl⟩
  obtain ⟨d, fr, hf1eq, hleq⟩ := hheadl
  have hpreCL : (str "#").isPrefixOf (mm.f1 ++ ' ' :: (mm.f2 ++ ' ' :: (mm.f3 ++ ' ' ::
      (mm.f4 ++ ' ' :: (mm.f5 ++ ' ' :: goTrimSpace mm.rest))))) = false := by
    rw [hf1eq, List.cons_append]
    have : (str "#") = ['#'] := rfl
    rw [this, prefix_single_cons]
    have hprel : (str "#").isPrefixOf l = false := hpre
    rw [hleq, show (str "#") = ['#'] from rfl, prefix_single_cons] at hprel
    exact hprel
  have hstarEq : ((str "*").isPrefixOf (mm.f1 ++ ' ' :: (mm.f2 ++ ' ' :: (mm.f3 ++ ' ' ::
      (mm.f4 ++ ' ' :: (mm.f5 ++ ' ' :: goTrimSpace mm.rest)))))) =
      ((str "*").isPrefixOf l) := by
    rw [hf1eq, List.cons_append, hleq]
    have : (str "*") = ['*'] := rfl
    rw [this, prefix_single_cons, prefix_single_cons]
  have hcontainsEq : ((mm.f1 ++ ' ' :: (mm.f2 ++ ' ' :: (mm.f3 ++ ' ' :: (mm.f4 ++ ' ' ::
      (mm.f5 ++ ' ' :: goTrimSpace mm.rest))))).contains '=') = (l.contains '=') :=
    contains_congr
      ((mem_canonical_iff hdecomp hs1 hs2 hs3 hs4 hs5 (by decide)).symm)
  have henvCL : ((mm.f1 ++ ' ' :: (mm.f2 ++ ' ' :: (mm.f3 ++ ' ' :: (mm.f4 ++ ' ' ::
      (mm.f5 ++ ' ' :: goTrimSpace mm.rest))))).contains '=' &&
      !((str "*").isPrefixOf (mm.f1 ++ ' ' :: (mm.f2 ++ ' ' :: (mm.f3 ++ ' ' ::
        (mm.f4 ++ ' ' :: (mm.f5 ++ ' ' :: goTrimSpace mm.rest))))))) = false := by
    rw [hcontainsEq, hstarEq]
    exact henv
  unfold lineClass
  rw [if_neg (by rw [htrimCL]; exact fun h => absurd h (by decide)),
    if_neg (by rw [hpreCL]; exact fun h => absurd h (by decide)),
    if_neg (by rw [henvCL]; exact fun h => absurd h (by decide)), hmc]

/-- A line preserved by Step 2 fails the task pattern, and if it starts
with `"#"` it does not start with `"# "`. -/
theorem kept_inv (S : List CrontabEntry) (l : Str) (h : step2Keep S l = true) :
    cronMatches l = false ∧
      ((str "#").isPrefixOf l = true → (str "# ").isPrefixOf l = false) := by
  simp only [step2Keep] at h
  by_cases hb : (goTrimSpace l == [] || (str "#").isPrefixOf (goTrimSpace l)) = true
  · rw [if_pos hb] at h
    by_cases hcond : (!(S.any fun e => e.rawLine == l) && !cronMatches l &&
        !((str "# ").isPrefixOf l)) = true
    · simp only [Bool.and_eq_true, Bool.not_eq_true'] at hcond
      obtain ⟨⟨ha, hcr⟩, hp2⟩ := hcond
      exact ⟨hcr, fun _ => hp2⟩
    · rw [if_neg hcond] at h
      exact absurd h (by decide)
  · rw [if_neg hb] at h
    simp only [Bool.and_eq_true, Bool.not_eq_true'] at h
    obtain ⟨hcr, hfound⟩ := h
    refine ⟨hcr, fun hp => ?_⟩
    exfalso
    apply hb
    obtain ⟨t, ht⟩ := prefix_hash_inv hp
    obtain ⟨u, hu⟩ := goTrimSpace_hash_cons t
    rw [ht, hu]
    simp [str, List.isPrefixOf]

/-- A line preserved by Step 2 is skipped by the parser. -/
theorem lineClass_none_of_kept (S : List CrontabEntry) (l : Str)
    (h : step2Keep S l = true) : lineClass l = none := by
  obtain ⟨hcr, hp⟩ := kept_inv S l h
  have hnone : matchCron l = none := by
    cases hmc : matchCron l with
    | none => rfl
    | some m =>
      unfold cronMatches at hcr
      rw [hmc] at hcr
      simp at hcr
  unfold lineClass
  by_cases h1 : (goTrimSpace l == []) = true
  · rw [if_pos h1]
  · rw [if_neg h1]
    by_cases h2 : ((str "#").isPrefixOf l) = true
    · rw [if_pos h2, if_neg (by rw [hp h2]; exact fun hc => absurd hc (by decide))]
    · rw [if_neg h2]
      by_cases h4 : (l.contains '=' && !((str "*").isPrefixOf l)) = true
      · rw [if_pos h4]
      · rw [if_neg h4, hnone]

/-- The Step-1 emission of a parsed disabled entry is its raw line. -/
theorem emitLine_entry_disabled {l : Str} {mm : CronMatch} (n : Nat)
    (hl : lineClass l = some (false, mm)) :
    emitLine (entryOfMatch n mm l false) = l := by
  obtain ⟨htrim, hpre, hpre2, hm⟩ := lineClass_some_false hl
  have hne : l ≠ [] := by
    intro h0
    rw [h0] at hpre
    exact absurd hpre (by decide)
  simp [emitLine, entryOfMatch, hne, hpre]

/-- The Step-1 emission of a parsed enabled entry is its canonical line. -/
theorem emitLine_entry_enabled {l : Str} {mm : CronMatch} (n : Nat) :
    emitLine (entryOfMatch n mm l true) = canonicalLine (entryOfMatch n mm l true) := by
  simp [emitLine, entryOfMatch]

/-- Parsing one line whose `lineClass` is known. -/
theorem parse_single_some (l : Str) (n : Nat) (b : Bool) (mm : CronMatch)
    (hc : lineClass l = some (b, mm)) :
    parseCrontabLines [l] n = [entryOfMatch n mm l b] := by
  rw [parse_cons, hc]
  rfl

theorem parse_single_none (l : Str) (n : Nat) (hc : lineClass l = none) :
    parseCrontabLines [l] n = [] := by
  rw [parse_cons, hc]
  rfl

/-- Per-line round trip: parsing the Step-1 emission of a parsed entry
reproduces the entry's view. -/
theorem view_emit {l : Str} {mm : CronMatch} (n : Nat) (b : Bool)
    (hc : lineClass l = some (b, mm)) (hln : '\n' ∉ l) :
    (parseCrontabLines [emitLine (entryOfMatch n mm l b)] 0).map entryView =
      [entryView (entryOfMatch n mm l b)] := by
  cases b with
  | false =>
    rw [emitLine_entry_disabled n hc, parse_single_some l 0 false mm hc]
    rfl
  | true =>
    rw [emitLine_entry_enabled, canonical_entry_eq,
      parse_single_some _ 0 true ⟨mm.f1, mm.f2, mm.f3, mm.f4, mm.f5, goTrimSpace mm.rest⟩
        (lineClass_canonical hc hln)]
    simp only [List.map_cons, List.map_nil]
    have : entryView (entryOfMatch 0 ⟨mm.f1, mm.f2, mm.f3, mm.f4, mm.f5, goTrimSpace mm.rest⟩
        (mm.f1 ++ ' ' :: (mm.f2 ++ ' ' :: (mm.f3 ++ ' ' :: (mm.f4 ++ ' ' ::
          (mm.f5 ++ ' ' :: goTrimSpace mm.rest))))) true) =
        entryView (entryOfMatch n mm l true) := by
      simp [entryView, entryOfMatch, goTrimSpace_idem]
    rw [this]

/-- Characters of a Step-1 emission of a parsed entry are characters of its
source line, a space, or the hash character. -/
theorem emit_chars {l : Str} {mm : CronMatch} (n : Nat) (b : Bool)
    (hc : lineClass l = some (b, mm)) :
    ∀ ch ∈ emitLine (entryOfMatch n mm l b), ch ∈ l ∨ ch = ' ' := by
  cases b with
  | false =>
    rw [emitLine_entry_disabled n hc]
    exact fun ch hch => Or.inl hch
  | true =>
    obtain ⟨htrim, hpre, henv, hm⟩ := lineClass_some_true hc
    obtain ⟨⟨s1, s2, s3, s4, s5, hdecomp, hs1, hs2, hs3, hs4, hs5⟩,
      hfne, hgs⟩ := matchCron_some_decomp hm
    rw [emitLine_entry_enabled, canonical_entry_eq]
    intro ch hch
    simp only [List.mem_append, List.mem_cons] at hch
    have hmem : ∀ {part : Str}, ch ∈ part →
        (part = mm.f1 ∨ part = mm.f2 ∨ part = mm.f3 ∨ part = mm.f4 ∨ part = mm.f5 ∨
          part = mm.rest) → ch ∈ l := by
      intro part hp hcases
      rw [hdecomp]
      simp only [List.mem_append]
      rcases hcases with rfl | rfl | rfl | rfl | rfl | rfl
      · exact Or.inl hp
      · exact Or.inr (Or.inr (Or.inl hp))
      · exact Or.inr (Or.inr (Or.inr (Or.inr (Or.inl hp))))
      · exact Or.inr (Or.inr (Or.inr (Or.inr (Or.inr (Or.inr (Or.inl hp))))))
      · exact Or.inr (Or.inr (Or.inr (Or.inr (Or.inr (Or.inr (Or.inr (Or.inr (Or.inl hp))))))))
      · exact Or.inr (Or.inr (Or.inr (Or.inr (Or.inr (Or.inr (Or.inr (Or.inr (Or.inr
          (Or.inr hp)))))))))
    rcases hch with h | h | h | h | h | h | h | h | h | h | h
    · exact Or.inl (hmem h (Or.inl rfl))
    · exact Or.inr h
    · exact Or.inl (hmem h (Or.inr (Or.inl rfl)))
    · exact Or.inr h
    · exact Or.inl (hmem h (Or.inr (Or.inr (Or.inl rfl))))
    · exact Or.inr h
    · exact Or.inl (hmem h (Or.inr (Or.inr (Or.inr (Or.inl rfl)))))
    · exact Or.inr h
    · exact Or.inl (hmem h (Or.inr (Or.inr (Or.inr (Or.inr (Or.inl rfl))))))
    · exact Or.inr h
    · exact Or.inl (hmem (mem_of_mem_goTrimSpace h) (Or.inr (Or.inr (Or.inr (Or.inr
        (Or.inr rfl))))))

theorem flatten_singleton_map {α β : Type} (f : α → β) (l : List α) :
    (l.map (fun x => [f x])).flatten = l.map f := by
  induction l with
  | nil => rfl
  | cons a t ih => simp [ih]

/-- C6 counterexample: for the store text `"# a b c d e\r\r\n"` the fetch
parses one disabled entry (the trailing carriage return survives one
`bufio` pass and serves as the separator before the empty command), but
reconciling the unmodified entry set and re-parsing yields no entries: the
re-emitted raw line loses its carriage return at the next line split and
no longer matches the pattern. -/
theorem c6_counterexample :
    ((parseCrontabOutput (str "# a b c d e\r\r\n") 1).map entryView ≠ []) ∧
      (parseCrontabOutput
          (updateCrontabContent (parseCrontabOutput (str "# a b c d e\r\r\n") 1)
            (str "# a b c d e\r\r\n")) 1).map entryView = [] := by
  constructor
  · decide
  · decide

/-- C6 amended: for every store text containing no carriage return,
parsing the text produced by reconciling the unmodified parsed entry set
against it yields entries whose minute, hour, dayOfMonth, month,
dayOfWeek, command and enabled values equal those of the original parse,
in the same order, ignoring the id counter values. -/
theorem c6_round_trip (T : Str) (n1 n2 : Nat) (hT : ∀ c ∈ T, c ≠ '\r') :
    (parseCrontabOutput (updateCrontabContent (parseCrontabOutput T n1) T) n2).map
        entryView
      = (parseCrontabOutput T n1).map entryView := by
  simp only [parseCrontabOutput]
  have hTlines : ∀ l ∈ goLines T, '\n' ∉ l ∧ '\r' ∉ l :=
    fun l hl => ⟨goLines_no_newline T l hl,
      fun hr => hT '\r' (goLines_chars T l hl '\r' hr) rfl⟩
  have hEsrc : ∀ e ∈ parseCrontabLines (goLines T) n1, ∃ l ∈ goLines T,
      ∃ (b : Bool) (mm : CronMatch),
        lineClass l = some (b, mm) ∧ e = entryOfMatch e.id mm l b :=
    parse_mem_source _ n1
  have hEchars : ∀ e ∈ parseCrontabLines (goLines T) n1,
      '\n' ∉ emitLine e ∧ '\r' ∉ emitLine e := by
    intro e he
    obtain ⟨l, hl, b, mm, hcl, heq⟩ := hEsrc e he
    have hlp := hTlines l hl
    rw [heq]
    constructor
    · intro hmem
      rcases emit_chars e.id b hcl '\n' hmem with h | h
      · exact hlp.1 h
      · exact absurd h (by decide)
    · intro hmem
      rcases emit_chars e.id b hcl '\r' hmem with h | h
      · exact hlp.2 h
      · exact absurd h (by decide)
  have hO : goLines (updateCrontabContent (parseCrontabLines (goLines T) n1) T) =
      (parseCrontabLines (goLines T) n1).map emitLine ++
        (goLines T).filter (step2Keep (parseCrontabLines (goLines T) n1)) := by
    rw [updateCrontab_decomp]
    rw [show ((parseCrontabLines (goLines T) n1).map emitEntry).flatten ++
          ((((goLines T).filter (step2Keep (parseCrontabLines (goLines T) n1))).map
            (fun l => l ++ ['\n'])).flatten)
        = ((((parseCrontabLines (goLines T) n1).map emitLine ++
            (goLines T).filter (step2Keep (parseCrontabLines (goLines T) n1))).map
              (fun l => l ++ ['\n'])).flatten) by
      rw [List.map_append, List.flatten_append, List.map_map]
      rfl]
    apply goLines_flatten
    intro l hl
    rcases List.mem_append.mp hl with hl | hl
    · obtain ⟨e, he, rfl⟩ := List.mem_map.mp hl
      exact ⟨(hEchars e he).1, stripCR_eq_self_of_not_mem (hEchars e he).2⟩
    · have hmem := List.mem_filter.mp hl
      exact ⟨(hTlines l hmem.1).1, stripCR_eq_self_of_not_mem (hTlines l hmem.1).2⟩
  rw [hO, parse_view_flatMap _ n2, List.map_append, List.flatten_append]
  have hkeptpart : ((((goLines T).filter
      (step2Keep (parseCrontabLines (goLines T) n1))).map
        (fun l => (parseCrontabLines [l] 0).map entryView)).flatten : List EntryView)
      = [] := by
    rw [List.flatten_eq_nil_iff]
    intro x hx
    obtain ⟨l, hl, rfl⟩ := List.mem_map.mp hx
    rw [parse_single_none l 0 (lineClass_none_of_kept _ l (List.mem_filter.mp hl).2)]
    rfl
  have hemitpart : ((((parseCrontabLines (goLines T) n1).map emitLine).map
      (fun l => (parseCrontabLines [l] 0).map entryView)).flatten : List EntryView)
      = (parseCrontabLines (goLines T) n1).map entryView := by
    rw [List.map_map]
    have hcongr : ∀ e ∈ parseCrontabLines (goLines T) n1,
        ((fun l => (parseCrontabLines [l] 0).map entryView) ∘ emitLine) e
          = (fun e => [entryView e]) e := by
      intro e he
      obtain ⟨l, hl, b, mm, hcl, heq⟩ := hEsrc e he
      show (parseCrontabLines [emitLine e] 0).map entryView = [entryView e]
      rw [heq]
      exact view_emit e.id b hcl (hTlines l hl).1
    rw [List.map_congr_left hcongr, flatten_singleton_map]
  rw [hkeptpart, hemitpart, List.append_nil]

theorem c6_round_trip_witness :
    (parseCrontabOutput
        (updateCrontabContent
          (parseCrontabOutput
            (str "*/5 * * * * /usr/bin/foo\n# note\nFOO=bar\n\n# 0 1 2 3 4 echo hi\n") 1)
          (str "*/5 * * * * /usr/bin/foo\n# note\nFOO=bar\n\n# 0 1 2 3 4 echo hi\n")) 7).map
      entryView
      = (parseCrontabOutput
          (str "*/5 * * * * /usr/bin/foo\n# note\nFOO=bar\n\n# 0 1 2 3 4 echo hi\n") 1).map
          entryView :=
  c6_round_trip
    (str "*/5 * * * * /usr/bin/foo\n# note\nFOO=bar\n\n# 0 1 2 3 4 echo hi\n") 1 7
    (by decide)

/-- C5 counterexample: reconciling twice is not byte-identical in general.
First conjunct: an enabled entry with minute `"a"` and all other fields
empty emits `"a     "`, which on the second pass fails the task pattern
and is re-preserved, duplicating itself.  Second conjunct: a fresh line
ending in `"\r\r\n"` keeps one trailing carriage return on the first pass
and loses it on the second. -/
theorem c5_counterexample :
    updateCrontabContent [aOnlyEntry] (updateCrontabContent [aOnlyEntry] []) ≠
        updateCrontabContent [aOnlyEntry] [] ∧
      updateCrontabContent [] (updateCrontabContent [] (str "x\r\r\n")) ≠
        updateCrontabContent [] (str "x\r\r\n") := by
  constructor
  · decide
  · decide

/-- C5 amended: the merge is idempotent in its text argument provided
every enabled submitted entry's canonical line matches the task pattern,
every Step-1 emitted line is a single line not ending in a carriage
return, and no fresh line ends in a carriage return.  The counterexample
shows each proviso is needed. -/
theorem c5_amended (S : List CrontabEntry) (T : Str)
    (h1 : ∀ e ∈ S, e.enabled = true → cronMatches (canonicalLine e) = true)
    (h2 : ∀ e ∈ S, '\n' ∉ emitLine e ∧ (emitLine e).getLast? ≠ some '\r')
    (h3 : ∀ l ∈ goLines T, l.getLast? ≠ some '\r') :
    updateCrontabContent S (updateCrontabContent S T) = updateCrontabContent S T := by
  have hkeptsub : ∀ l ∈ (goLines T).filter (step2Keep S), l ∈ goLines T :=
    fun l hl => (List.mem_filter.mp hl).1
  have hkeptkeep : ∀ l ∈ (goLines T).filter (step2Keep S), step2Keep S l = true :=
    fun l hl => (List.mem_filter.mp hl).2
  have hO : goLines (updateCrontabContent S T) =
      S.map emitLine ++ (goLines T).filter (step2Keep S) := by
    rw [updateCrontab_decomp]
    rw [show (S.map emitEntry).flatten ++
          ((((goLines T).filter (step2Keep S)).map (fun l => l ++ ['\n'])).flatten)
        = (((S.map emitLine ++ (goLines T).filter (step2Keep S)).map
            (fun l => l ++ ['\n'])).flatten) by
      rw [List.map_append, List.flatten_append, List.map_map]
      rfl]
    apply goLines_flatten
    intro l hl
    rcases List.mem_append.mp hl with hl | hl
    · obtain ⟨e, he, rfl⟩ := List.mem_map.mp hl
      exact ⟨(h2 e he).1, stripCR_eq_self (h2 e he).2⟩
    · exact ⟨goLines_no_newline T l (hkeptsub l hl),
        stripCR_eq_self (h3 l (hkeptsub l hl))⟩
  have hfilter : (goLines (updateCrontabContent S T)).filter (step2Keep S) =
      (goLines T).filter (step2Keep S) := by
    rw [hO, List.filter_append]
    have hnil : (S.map emitLine).filter (step2Keep S) = [] := by
      refine List.filter_eq_nil_iff.mpr fun l hl => ?_
      obtain ⟨e, he, rfl⟩ := List.mem_map.mp hl
      simp [emitLine_not_kept S e he (h1 e he)]
    have hself : ((goLines T).filter (step2Keep S)).filter (step2Keep S) =
        (goLines T).filter (step2Keep S) :=
      List.filter_eq_self.mpr hkeptkeep
    rw [hnil, hself, List.nil_append]
  rw [updateCrontab_decomp S (updateCrontabContent S T), hfilter,
    ← updateCrontab_decomp]

theorem c5_amended_witness :
    updateCrontabContent [fooEntry]
        (updateCrontabContent [fooEntry] (str "# note\nFOO=bar\n")) =
      updateCrontabContent [fooEntry] (str "# note\nFOO=bar\n") :=
  c5_amended [fooEntry] (str "# note\nFOO=bar\n") (by decide) (by decide) (by decide)

/-- C7: an entry with empty rawLine and enabled=true emits its canonical
whitespace-joined six-field line, and for the concrete backup entry the
output begins with `"0 3 * * * /bin/backup.sh\n"` followed by the
preserved fresh lines. -/
theorem c7_new_entry_append :
    (∀ e : CrontabEntry, e.rawLine = [] → e.enabled = true →
        emitEntry e = canonicalLine e ++ ['\n']) ∧
      ∀ T : Str,
        updateCrontabContent [backupEntry] T =
          str "0 3 * * * /bin/backup.sh\n" ++
            (((goLines T).filter (step2Keep [backupEntry])).map
              (fun l => l ++ ['\n'])).flatten := by
  constructor
  · intro e h1 h2
    simp [emitEntry, emitLine, h2]
  · intro T
    have hhead : (([backupEntry].map emitEntry)).flatten =
        str "0 3 * * * /bin/backup.sh\n" := by decide
    rw [updateCrontab_decomp, hhead]

theorem c7_new_entry_append_witness :
    emitEntry backupEntry = canonicalLine backupEntry ++ ['\n'] :=
  c7_new_entry_append.1 backupEntry rfl rfl

/-- C8 counterexample: a non-zero List outcome with stderr
`"crontab: permission denied"` fails, but the caller-facing error is
`"Failed to list crontab: exit status 1"` — the captured diagnostic is not
part of it. -/
theorem c8_counterexample :
    getCrontab (.exitFailure 1 (str "crontab: permission denied")) 1 =
        .error (str "Failed to list crontab: exit status 1") ∧
      strContainsSub (str "Failed to list crontab: exit status 1")
          (str "permission denied") = false := by
  constructor
  · rfl
  · decide

/-- C8 amended: a non-zero List outcome whose stderr contains
"no crontab for" succeeds with the empty entry list; any other non-zero
outcome fails with `"Failed to list crontab: "` followed by the Go error
rendering `"exit status N"` — the captured stderr diagnostic is only
logged, not surfaced to the caller. -/
theorem c8_error_handling :
    (∀ (code : Nat) (stderr : Str) (n : Nat),
        strContainsSub stderr (str "no crontab for") = true →
        getCrontab (.exitFailure code stderr) n = .ok []) ∧
      ∀ (code : Nat) (stderr : Str) (n : Nat),
        strContainsSub stderr (str "no crontab for") = false →
        getCrontab (.exitFailure code stderr) n =
          .error (str "Failed to list crontab: " ++ exitStatusMsg code) := by
  constructor
  · intro code stderr n h
    simp [getCrontab, h]
  · intro code stderr n h
    simp [getCrontab, h]

theorem c8_error_handling_witness :
    getCrontab (.exitFailure 1 (str "no crontab for root")) 1 = .ok [] ∧
      getCrontab (.exitFailure 1 (str "boom")) 1 =
        .error (str "Failed to list crontab: " ++ exitStatusMsg 1) :=
  ⟨c8_error_handling.1 1 (str "no crontab for root") 1 (by decide),
    c8_error_handling.2 1 (str "boom") 1 (by decide)⟩

/-- C9 counterexample: the claim fails in both directions.  The line
`"# 1 1 1 1 1 a=b"` contains `=` and does not start with `*`, yet the
parser emits an entry for it (the comment branch runs before the
environment-variable check).  The line `"A=b c d e f g"` contains `=` and
does not start with `*`, is skipped by the parser, yet is dropped (not
preserved) by a reconciliation with no submitted entries because it
matches the six-group task pattern. -/
theorem c9_counterexample :
    ((str "# 1 1 1 1 1 a=b").contains '=' = true ∧
        (str "*").isPrefixOf (str "# 1 1 1 1 1 a=b") = false ∧
        parseCrontabOutput (str "# 1 1 1 1 1 a=b\n") 1 ≠ []) ∧
      ((str "A=b c d e f g").contains '=' = true ∧
        (str "*").isPrefixOf (str "A=b c d e f g") = false ∧
        updateCrontabContent [] (str "A=b c d e f g\n") = []) := by
  exact ⟨⟨by decide, by decide, by decide⟩, ⟨by decide, by decide, by decide⟩⟩

/-- C9 amended: a line containing `=` that does not start with `*`, does
not start with `"# "`, and does not match the six-group task pattern is
never parsed into an entry, and is preserved by Step 2 of any
reconciliation in which no submitted entry's rawLine equals it. -/
theorem c9_env_lines (S : List CrontabEntry) (l : Str) (rest : List Str) (n : Nat)
    (h1 : l.contains '=' = true)
    (h2 : (str "*").isPrefixOf l = false)
    (h3 : (str "# ").isPrefixOf l = false)
    (h4 : cronMatches l = false)
    (h5 : ∀ e ∈ S, e.rawLine ≠ l) :
    parseCrontabLines (l :: rest) n = parseCrontabLines rest n ∧
      step2Keep S l = true := by
  constructor
  · by_cases hpre : (str "#").isPrefixOf l = true
    · exact parse_skip_hash l rest n hpre h3
    · exact parse_skip_line l rest n (Bool.eq_false_iff.mpr hpre) h4
  · exact keep_true_of_unclaimed S l h4 h5 h3

theorem c9_env_lines_witness :
    parseCrontabLines [str "FOO=bar"] 1 = parseCrontabLines [] 1 ∧
      step2Keep [] (str "FOO=bar") = true :=
  c9_env_lines [] (str "FOO=bar") [] 1 (by decide) (by decide) (by decide)
    (by decide) (by simp)

/-- C10: when some submitted entry has an empty rawLine, the blank/comment
branch of Step 2 treats the empty store line as managed (it compares equal
to that entry's rawLine), so every completely empty line of the fresh text
is dropped rather than preserved. -/
theorem c10_empty_rawline_drops_blank_lines :
    ∀ S : List CrontabEntry, (∃ e ∈ S, e.rawLine = []) →
      step2Keep S [] = false ∧
        ∀ T : Str, ¬ ([] : Str) ∈ (goLines T).filter (step2Keep S) := by
  intro S ⟨e, he, hraw⟩
  have hany : (S.any (fun x => x.rawLine == ([] : Str))) = true :=
    List.any_eq_true.mpr ⟨e, he, by simp [hraw]⟩
  have hkeep : step2Keep S [] = false := by
    simp [step2Keep, goTrimSpace, hany]
    exact fun _ _ _ => ⟨e, he, hraw⟩
  exact ⟨hkeep, fun T hmem => by simp [List.mem_filter, hkeep] at hmem⟩

theorem c10_empty_rawline_witness :
    step2Keep [backupEntry] [] = false :=
  (c10_empty_rawline_drops_blank_lines [backupEntry]
    ⟨backupEntry, by simp, by decide⟩).1
